import Mathlib

/- Shallow embedding of the valuation pipeline of inverno (src/inverno/project.py,
   class Project): currency resolution, per-holding price history with source
   fallback, price alignment with interpolation, and the allocation / earnings
   aggregation.  Dates are modelled as natural numbers (calendar days), prices
   and rates as rationals, and a missing value (a NaN cell) as `none`.
   External collaborators (the config, Yahoo Finance, the currency-rate
   provider) are modelled as data carried by each holding entry. -/

/-- A transaction price: `trs.price.amount` and `trs.price.currency`. -/
structure TrPrice where
  amount : ℚ
  currency : String
  deriving DecidableEq

/-- A transaction restricted to what project.py reads from it: its date and
    its optional explicit price. -/
structure Transaction where
  date : Nat
  price : Option TrPrice
  deriving DecidableEq

/-- A price series: pandas `pd.Series` with a date index, one entry per index
    label, the value `none` standing for NaN. -/
abbrev PSeries := List (Nat × Option ℚ)

/-- One entry of `Project._first_holdings` together with the external data
    project.py consults for that holding: the ordered transactions of the
    holding (`cfg.transactions_by_holding`), the configured currency
    (`cfg.get_currency`), the currency reported by Yahoo Finance for its
    ticker (`none` when there is no ticker or the lookup raises `KeyError`),
    the user-supplied price series (`cfg.get_prices`) and the Yahoo Finance
    close-price history for the report range (`ticker.history(...)["Close"]`,
    the empty list when nothing is returned). -/
structure HoldingEntry where
  key : String
  ticker : Option String
  firstDate : Nat
  transactions : List Transaction
  configCurrency : Option String
  yahooCurrency : Option String
  userPrices : Option PSeries
  yahooHistory : PSeries
  deriving DecidableEq

/-- The first transaction of the holding that carries an explicit price: the
    `for trs in ...: if trs.price is not None: ...; break` loop of
    `Project._get_currencies`. -/
def firstPriced (trs : List Transaction) : Option TrPrice :=
  (trs.find? (fun t => t.price.isSome)).bind (fun t => t.price)

/-- The body of the `Project._get_currencies` loop for one holding: first the
    currency of the first priced transaction, then the configured currency,
    then the Yahoo Finance currency (only reachable when a ticker is
    present), otherwise the `ValueError` of project.py line 254 (the message
    is the source text with the contraction written out). -/
def resolveCurrency (h : HoldingEntry) : Except String String :=
  match firstPriced h.transactions with
  | some p => Except.ok p.currency
  | none =>
    match h.configCurrency with
    | some c => Except.ok c
    | none =>
      match h.ticker with
      | some _ =>
        match h.yahooCurrency with
        | some c => Except.ok c
        | none => Except.error ("Could not determine currency for " ++ h.key)
      | none => Except.error ("Could not determine currency for " ++ h.key)

/-- `Project._get_currencies` over the list of first holdings: the
    holding-to-currency map is built in iteration order and the whole
    construction aborts at the first holding whose currency cannot be
    resolved (the raise propagates out of `Project.__init__`). -/
def getCurrencies : List HoldingEntry → Except String (List (String × String))
  | [] => Except.ok []
  | h :: hs =>
    match resolveCurrency h with
    | Except.error e => Except.error e
    | Except.ok c =>
      match getCurrencies hs with
      | Except.error e => Except.error e
      | Except.ok rest => Except.ok ((h.key, c) :: rest)

/-- C2: currency resolution tries, in this order, (a) the currency of the
    holding's first transaction carrying an explicit price, (b) the currency
    configured for the holding, (c) the currency reported by the market-data
    provider for its ticker, and returns the first success; in particular a
    holding with both a priced transaction in currency X and a configured
    currency Y resolves to X. -/
theorem currency_priority (h : HoldingEntry) :
    (∀ p, firstPriced h.transactions = some p →
      resolveCurrency h = Except.ok p.currency) ∧
    (firstPriced h.transactions = none →
      ∀ c, h.configCurrency = some c → resolveCurrency h = Except.ok c) ∧
    (firstPriced h.transactions = none → h.configCurrency = none →
      ∀ t c, h.ticker = some t → h.yahooCurrency = some c →
        resolveCurrency h = Except.ok c) := by
  refine ⟨?_, ?_, ?_⟩
  · intro p hp
    simp [resolveCurrency, hp]
  · intro hp c hc
    simp [resolveCurrency, hp, hc]
  · intro hp hc t c ht hy
    simp [resolveCurrency, hp, hc, ht, hy]

/-- A concrete holding with a priced transaction in USD and a configured
    currency EUR. -/
def c2Holding : HoldingEntry :=
  { key := "vanguard: VWCE",
    ticker := some "VWCE.DE",
    firstDate := 0,
    transactions := [{ date := 1, price := some { amount := 3, currency := "USD" } }],
    configCurrency := some "EUR",
    yahooCurrency := some "GBP",
    userPrices := none,
    yahooHistory := [] }

/-- Witness for C2: the concrete holding above resolves to the transaction
    currency USD, not the configured EUR. -/
theorem currency_priority_witness :
    firstPriced c2Holding.transactions = some { amount := 3, currency := "USD" } ∧
    resolveCurrency c2Holding = Except.ok "USD" :=
  ⟨by decide, (currency_priority c2Holding).1 { amount := 3, currency := "USD" } (by decide)⟩

/-- C3: a holding with no priced transaction, no configured currency, and a
    failed or absent ticker lookup makes currency resolution fail with an
    error naming the holding's key, and `_get_currencies` as a whole aborts
    with an error (so the holding is never silently mapped to any currency,
    in particular not to the destination currency). -/
theorem currency_unresolved (h : HoldingEntry)
    (h1 : firstPriced h.transactions = none)
    (h2 : h.configCurrency = none)
    (h3 : h.ticker = none ∨ h.yahooCurrency = none) :
    resolveCurrency h = Except.error ("Could not determine currency for " ++ h.key) ∧
    ∀ hs, h ∈ hs → ∃ e, getCurrencies hs = Except.error e := by
  have hres : resolveCurrency h =
      Except.error ("Could not determine currency for " ++ h.key) := by
    rcases h3 with h3 | h3
    · simp [resolveCurrency, h1, h2, h3]
    · cases ht : h.ticker with
      | none => simp [resolveCurrency, h1, h2, ht]
      | some t => simp [resolveCurrency, h1, h2, ht, h3]
  refine ⟨hres, ?_⟩
  intro hs hmem
  induction hs with
  | nil => cases hmem
  | cons a as ih =>
    rcases List.mem_cons.mp hmem with rfl | hmem'
    · exact ⟨"Could not determine currency for " ++ h.key, by simp [getCurrencies, hres]⟩
    · rcases ih hmem' with ⟨e, he⟩
      cases ha : resolveCurrency a with
      | error e0 => exact ⟨e0, by simp [getCurrencies, ha]⟩
      | ok c => exact ⟨e, by simp [getCurrencies, ha, he]⟩

/-- A concrete holding for which every currency source fails. -/
def c3Holding : HoldingEntry :=
  { key := "degiro: ACME",
    ticker := some "ACME",
    firstDate := 0,
    transactions := [{ date := 1, price := none }],
    configCurrency := none,
    yahooCurrency := none,
    userPrices := none,
    yahooHistory := [] }

/-- Witness for C3: the concrete all-sources-fail holding makes resolution
    error out naming its key and aborts the currency map construction. -/
theorem currency_unresolved_witness :
    (firstPriced c3Holding.transactions = none ∧ c3Holding.configCurrency = none ∧
      (c3Holding.ticker = none ∨ c3Holding.yahooCurrency = none)) ∧
    (resolveCurrency c3Holding =
        Except.error ("Could not determine currency for " ++ c3Holding.key) ∧
      ∀ hs, c3Holding ∈ hs → ∃ e, getCurrencies hs = Except.error e) :=
  ⟨⟨by decide, rfl, Or.inr rfl⟩,
    currency_unresolved c3Holding (by decide) rfl (Or.inr rfl)⟩

/-- The pandas `reindex(method="pad")` value for one day: the value attached
    to the greatest original index label that is at most `d`.  `reindex`
    matches by label, so a NaN sitting at the nearest preceding label is
    carried over as NaN, not skipped. -/
def padLookup (s : PSeries) (d : Nat) : Option ℚ :=
  match (s.filter (fun e => e.1 ≤ d)).getLast? with
  | some e => e.2
  | none => none

/-- `s.index.min()`: the smallest index label (0 for the empty series, on
    which pandas would raise and which no caller reaches with data). -/
def minDate : PSeries → Nat
  | [] => 0
  | e :: rest =>
    match rest with
    | [] => e.1
    | _ :: _ => min e.1 (minDate rest)

/-- `s.index.max()`: the largest index label. -/
def maxDate : PSeries → Nat
  | [] => 0
  | e :: rest =>
    match rest with
    | [] => e.1
    | _ :: _ => max e.1 (maxDate rest)

/-- The series `_reindex` produces, built one day at a time: `n` consecutive
    days starting at `lo`, each day carrying the padded lookup into `s`. -/
def reindexFrom (s : PSeries) (lo : Nat) : Nat → PSeries
  | 0 => []
  | n + 1 => (lo, padLookup s lo) :: reindexFrom s (lo + 1) n

/-- `_reindex` of `Project._get_holding_prices`: reindex over the daily
    calendar `pd.date_range(s.index.min(), s.index.max())` with method pad.
    The empty series is mapped to itself. -/
def reindex (s : PSeries) : PSeries :=
  if s = [] then [] else reindexFrom s (minDate s) (maxDate s - minDate s + 1)

theorem minDate_le_of_mem {s : PSeries} {d : Nat} {v : Option ℚ}
    (hm : (d, v) ∈ s) : minDate s ≤ d := by
  induction s with
  | nil => cases hm
  | cons e rest ih =>
    rcases List.mem_cons.mp hm with rfl | hm'
    · cases rest <;> simp [minDate]
    · cases rest with
      | nil => cases hm'
      | cons y ys =>
        have := ih hm'
        simp only [minDate] at *
        omega

theorem le_maxDate_of_mem {s : PSeries} {d : Nat} {v : Option ℚ}
    (hm : (d, v) ∈ s) : d ≤ maxDate s := by
  induction s with
  | nil => cases hm
  | cons e rest ih =>
    rcases List.mem_cons.mp hm with rfl | hm'
    · cases rest <;> simp [maxDate]
    · cases rest with
      | nil => cases hm'
      | cons y ys =>
        have := ih hm'
        simp only [maxDate] at *
        omega

theorem minDate_le_maxDate {s : PSeries} (hne : s ≠ []) : minDate s ≤ maxDate s := by
  cases s with
  | nil => exact absurd rfl hne
  | cons e rest =>
    exact le_trans (minDate_le_of_mem (List.mem_cons_self e rest))
      (le_maxDate_of_mem (List.mem_cons_self e rest))

theorem mem_reindexFrom (s : PSeries) (d : Nat) (v : Option ℚ) :
    ∀ n lo, ((d, v) ∈ reindexFrom s lo n ↔
      (lo ≤ d ∧ d < lo + n ∧ v = padLookup s d)) := by
  intro n
  induction n with
  | zero => intro lo; simp [reindexFrom]; omega
  | succ n ih =>
    intro lo
    simp only [reindexFrom, List.mem_cons, ih (lo + 1), Prod.mk.injEq]
    constructor
    · rintro (⟨rfl, rfl⟩ | ⟨h1, h2, h3⟩)
      · exact ⟨le_refl _, by omega, rfl⟩
      · exact ⟨by omega, by omega, h3⟩
    · rintro ⟨h1, h2, rfl⟩
      rcases Nat.eq_or_lt_of_le h1 with heq | hlt
      · exact Or.inl ⟨heq.symm, by rw [heq]⟩
      · exact Or.inr ⟨by omega, by omega, rfl⟩

theorem pairwise_reindexFrom (s : PSeries) :
    ∀ n lo, List.Pairwise (fun a b => a.1 < b.1) (reindexFrom s lo n) := by
  intro n
  induction n with
  | zero => intro lo; simp [reindexFrom]
  | succ n ih =>
    intro lo
    refine List.pairwise_cons.mpr ⟨?_, ih (lo + 1)⟩
    intro x hx
    have := (mem_reindexFrom s x.1 x.2 n (lo + 1)).mp hx
    omega

theorem filter_getLast_of_mem {s : PSeries} {d : Nat} {v : Option ℚ}
    (hs : List.Pairwise (fun a b => a.1 < b.1) s) (hm : (d, v) ∈ s) :
    (s.filter (fun e => e.1 ≤ d)).getLast? = some (d, v) := by
  induction s with
  | nil => cases hm
  | cons e rest ih =>
    rcases List.pairwise_cons.mp hs with ⟨hrel, hrest⟩
    rcases List.mem_cons.mp hm with rfl | hm'
    · have hfil : rest.filter (fun e => e.1 ≤ d) = [] := by
        refine List.filter_eq_nil_iff.mpr ?_
        intro x hx
        have := hrel x hx
        simp only [decide_eq_true_eq]
        omega
      simp [List.filter_cons, hfil]
    · have hed : e.1 < d := by
        have := hrel (d, v) hm'
        exact this
      have hkeep : (e.1 ≤ d) = True := by simp; omega
      have ihr := ih hrest hm'
      cases hfr : rest.filter (fun e => e.1 ≤ d) with
      | nil => rw [hfr] at ihr; cases ihr
      | cons y ys =>
        rw [hfr] at ihr
        simp only [List.filter_cons, decide_eq_true_eq]
        rw [if_pos (by omega : e.1 ≤ d), hfr, List.getLast?_cons_cons, ihr]

theorem padLookup_eq_of_mem {s : PSeries} {d : Nat} {v : Option ℚ}
    (hs : List.Pairwise (fun a b => a.1 < b.1) s) (hm : (d, v) ∈ s) :
    padLookup s d = v := by
  unfold padLookup
  rw [filter_getLast_of_mem hs hm]

theorem padLookup_pred {s : PSeries} {d : Nat} (hd : 0 < d)
    (hnm : ∀ w, (d, w) ∉ s) : padLookup s d = padLookup s (d - 1) := by
  unfold padLookup
  have : s.filter (fun e => e.1 ≤ d) = s.filter (fun e => e.1 ≤ d - 1) := by
    refine List.filter_congr ?_
    intro x hx
    have hxd : x.1 ≠ d := by
      intro hc
      exact hnm x.2 (by rw [← hc]; exact hx)
    simp only [decide_eq_decide]
    omega
  rw [this]

/-- Label-based assignment `prices[trs.date] = trs.price.amount` on a
    date-sorted series: replace the value at an existing label, or insert a
    new label at its sorted position. -/
def setValue (s : PSeries) (d : Nat) (v : ℚ) : PSeries :=
  match s with
  | [] => [(d, some v)]
  | e :: rest =>
    if d < e.1 then (d, some v) :: e :: rest
    else if d = e.1 then (d, some v) :: rest
    else e :: setValue rest d v

/-- `pd.Series(index=pd.date_range(start, end, freq="D"), dtype=np.float64)`:
    n consecutive all-NaN days starting at lo. -/
def emptySeries (lo : Nat) : Nat → PSeries
  | 0 => []
  | n + 1 => (lo, none) :: emptySeries (lo + 1) n

/-- The transaction-inferred branch of `Project._get_holding_prices`: an
    all-NaN daily series over [startD, endD], then one assignment per
    transaction of the holding that carries an explicit price. -/
def inferredPrices (startD endD : Nat) (trs : List Transaction) : PSeries :=
  trs.foldl
    (fun acc t =>
      match t.price with
      | none => acc
      | some p => setValue acc t.date p.amount)
    (emptySeries startD (endD + 1 - startD))

/-- The value a series holds at an exact index label (`none` both for a
    missing label and for a NaN value, as in a pandas outer join). -/
def exactLookup (s : PSeries) (d : Nat) : Option ℚ :=
  match s.find? (fun e => e.1 = d) with
  | some e => e.2
  | none => none

/-- The price amount of the last transaction in list order that carries an
    explicit price and is dated d. -/
def lastPricedAt (trs : List Transaction) (d : Nat) : Option ℚ :=
  trs.foldl
    (fun acc t =>
      match t.price with
      | none => acc
      | some p => if t.date = d then some p.amount else acc)
    none

theorem exactLookup_setValue_self (s : PSeries) (d : Nat) (v : ℚ) :
    exactLookup (setValue s d v) d = some v := by
  induction s with
  | nil => simp [setValue, exactLookup, List.find?]
  | cons e rest ih =>
    by_cases h1 : d < e.1
    · simp [setValue, h1, exactLookup, List.find?]
    · by_cases h2 : d = e.1
      · simp [setValue, h1, h2, exactLookup, List.find?]
      · have hne : (e.1 = d) = False := by simp; omega
        simp only [setValue, if_neg h1, if_neg h2]
        simp only [exactLookup, List.find?] at ih ⊢
        rw [show (decide (e.1 = d)) = false by simp; omega]
        exact ih

theorem exactLookup_setValue_other (s : PSeries) {d d' : Nat} (v : ℚ)
    (hne : d ≠ d') : exactLookup (setValue s d' v) d = exactLookup s d := by
  induction s with
  | nil =>
    simp only [setValue, exactLookup, List.find?]
    rw [show (decide (d' = d)) = false by simp; omega]
  | cons e rest ih =>
    by_cases h1 : d' < e.1
    · simp only [setValue, if_pos h1, exactLookup, List.find?]
      rw [show (decide (d' = d)) = false by simp; omega]
    · by_cases h2 : d' = e.1
      · simp only [setValue, if_neg h1, if_pos h2, exactLookup, List.find?]
        rw [show (decide (d' = d)) = false by simp; omega,
          show (decide (e.1 = d)) = false by simp; omega]
      · simp only [setValue, if_neg h1, if_neg h2, exactLookup, List.find?] at ih ⊢
        cases hfind : (decide (e.1 = d)) with
        | true => rfl
        | false => exact ih

theorem exactLookup_emptySeries (d : Nat) :
    ∀ n lo, exactLookup (emptySeries lo n) d = none := by
  intro n
  induction n with
  | zero => intro lo; simp [emptySeries, exactLookup, List.find?]
  | succ n ih =>
    intro lo
    simp only [emptySeries, exactLookup, List.find?]
    cases hd : (decide (lo = d)) with
    | true => rfl
    | false =>
      have := ih (lo + 1)
      simpa [exactLookup] using this

theorem exactLookup_inferredPrices (startD endD d : Nat) (trs : List Transaction) :
    exactLookup (inferredPrices startD endD trs) d = lastPricedAt trs d := by
  have main : ∀ (ts : List Transaction) (s : PSeries) (o : Option ℚ),
      exactLookup s d = o →
      exactLookup
        (ts.foldl
          (fun acc t =>
            match t.price with
            | none => acc
            | some p => setValue acc t.date p.amount) s) d =
      ts.foldl
        (fun acc t =>
          match t.price with
          | none => acc
          | some p => if t.date = d then some p.amount else acc) o := by
    intro ts
    induction ts with
    | nil => intro s o h; simpa using h
    | cons t ts ih =>
      intro s o h
      simp only [List.foldl_cons]
      cases hp : t.price with
      | none => exact ih s o h
      | some p =>
        by_cases hd : t.date = d
        · subst hd
          simp only [if_pos rfl]
          exact ih _ _ (exactLookup_setValue_self s t.date p.amount)
        · simp only [if_neg hd]
          refine ih _ _ ?_
          rw [exactLookup_setValue_other s p.amount (by omega), h]
  exact main trs _ none (exactLookup_emptySeries d _ startD)

/-- The series `Project._get_holding_prices` selects before reindexing: the
    user-supplied series if the config returns one, else the Yahoo Finance
    history when a ticker is present and the fetched history is nonempty,
    else the transaction-inferred series. -/
def srcSeries (startD endD : Nat) (h : HoldingEntry) : PSeries :=
  match h.userPrices with
  | some s => s
  | none =>
    if h.ticker.isSome ∧ h.yahooHistory ≠ [] then h.yahooHistory
    else inferredPrices startD endD h.transactions

/-- `Project._get_holding_prices`: each branch returns `_reindex` of its
    series, labelled with the holding key; the `Option` mirrors the callers
    `is not None` check (the Python function returns on every path). -/
def holdingPrices (startD endD : Nat) (h : HoldingEntry) : Option (String × PSeries) :=
  match h.userPrices with
  | some s => some (h.key, reindex s)
  | none =>
    if h.ticker.isSome ∧ h.yahooHistory ≠ [] then some (h.key, reindex h.yahooHistory)
    else some (h.key, reindex (inferredPrices startD endD h.transactions))

theorem holdingPrices_eq_src (startD endD : Nat) (h : HoldingEntry) :
    holdingPrices startD endD h = some (h.key, reindex (srcSeries startD endD h)) := by
  unfold holdingPrices srcSeries
  cases h.userPrices with
  | some s => rfl
  | none =>
    by_cases hc : h.ticker.isSome ∧ h.yahooHistory ≠ []
    · simp [hc]
    · simp [hc]

/-- A holding whose only price source is a single priced transaction on
    day 2 of the report range [0, 4]. -/
def c4GapHolding : HoldingEntry :=
  { key := "trans: GAP",
    ticker := none,
    firstDate := 0,
    transactions := [{ date := 2, price := some { amount := 5, currency := "USD" } }],
    configCurrency := none,
    yahooCurrency := none,
    userPrices := none,
    yahooHistory := [] }

/-- A holding whose user-supplied price series holds a single point at day 1,
    inside the report range [0, 4]. -/
def c4UserHolding : HoldingEntry :=
  { key := "user: RNG",
    ticker := none,
    firstDate := 0,
    transactions := [],
    configCurrency := none,
    yahooCurrency := none,
    userPrices := some [(1, some 5)],
    yahooHistory := [] }

/-- Counterexample to C4 as stated: for the transaction-sourced holding the
    returned series spans [0, 4] but keeps empty (NaN) values on days 0, 1,
    3 and 4 even though day 0 is in [start, end] (reindex with method pad
    fills only labels absent from the original index, and forward-fill from
    day 2 never reaches days 0-1), and for the user-sourced holding the
    returned series covers only day 1, not every day of [start, end] =
    [0, 4]. -/
theorem c4_counterexample :
    holdingPrices 0 4 c4GapHolding =
      some ("trans: GAP", [(0, none), (1, none), (2, some 5), (3, none), (4, none)]) ∧
    holdingPrices 0 4 c4UserHolding = some ("user: RNG", [(1, some 5)]) := by
  exact ⟨by decide, by decide⟩

/-- C4 corrected: for every holding whose selected source series is nonempty
    (and date-sorted, as pandas indices are), the returned PriceSeries has
    exactly one entry per calendar day in [min, max] of the source series
    own index - not of [start, end]; a day present in the source keeps the
    source value, which may itself be empty, and a day absent from the
    source takes the previous day value (forward fill). -/
theorem c4_amended (startD endD : Nat) (h : HoldingEntry)
    (hsort : List.Pairwise (fun a b => a.1 < b.1) (srcSeries startD endD h))
    (hne : srcSeries startD endD h ≠ []) :
    ∃ ser, holdingPrices startD endD h = some (h.key, ser) ∧
      (∀ d v, (d, v) ∈ ser ↔
        (minDate (srcSeries startD endD h) ≤ d ∧ d ≤ maxDate (srcSeries startD endD h) ∧
          v = padLookup (srcSeries startD endD h) d)) ∧
      (∀ d v, (d, v) ∈ srcSeries startD endD h → (d, v) ∈ ser) ∧
      (∀ d v, minDate (srcSeries startD endD h) < d →
        (∀ w, (d, w) ∉ srcSeries startD endD h) →
        (d, v) ∈ ser → (d - 1, v) ∈ ser) := by
  set src := srcSeries startD endD h with hsrc
  have hminmax := minDate_le_maxDate hne
  have hser : reindex src = reindexFrom src (minDate src) (maxDate src - minDate src + 1) := by
    unfold reindex
    rw [if_neg hne]
  refine ⟨reindex src, holdingPrices_eq_src startD endD h, ?_, ?_, ?_⟩
  · intro d v
    rw [hser, mem_reindexFrom]
    constructor
    · rintro ⟨h1, h2, h3⟩
      exact ⟨h1, by omega, h3⟩
    · rintro ⟨h1, h2, h3⟩
      exact ⟨h1, by omega, h3⟩
  · intro d v hm
    rw [hser, mem_reindexFrom]
    exact ⟨minDate_le_of_mem hm, by have := le_maxDate_of_mem hm; omega,
      (padLookup_eq_of_mem hsort hm).symm⟩
  · intro d v hlt hnm hm
    rw [hser, mem_reindexFrom] at hm ⊢
    rcases hm with ⟨h1, h2, h3⟩
    refine ⟨by omega, by omega, ?_⟩
    rw [h3, padLookup_pred (by omega) hnm]

/-- Witness for the corrected C4, on the concrete transaction-sourced
    holding: its source series is sorted and nonempty, and the theorem
    applies. -/
theorem c4_amended_witness :
    (List.Pairwise (fun (a : Nat × Option ℚ) b => a.1 < b.1) (srcSeries 0 4 c4GapHolding) ∧
      srcSeries 0 4 c4GapHolding ≠ []) ∧
    (∃ ser, holdingPrices 0 4 c4GapHolding = some (c4GapHolding.key, ser) ∧
      (∀ d v, (d, v) ∈ ser ↔
        (minDate (srcSeries 0 4 c4GapHolding) ≤ d ∧
          d ≤ maxDate (srcSeries 0 4 c4GapHolding) ∧
          v = padLookup (srcSeries 0 4 c4GapHolding) d)) ∧
      (∀ d v, (d, v) ∈ srcSeries 0 4 c4GapHolding → (d, v) ∈ ser) ∧
      (∀ d v, minDate (srcSeries 0 4 c4GapHolding) < d →
        (∀ w, (d, w) ∉ srcSeries 0 4 c4GapHolding) →
        (d, v) ∈ ser → (d - 1, v) ∈ ser)) :=
  ⟨⟨by decide, by decide⟩, c4_amended 0 4 c4GapHolding (by decide) (by decide)⟩

/-- C5: price sources are tried in this exact order with the first success
    winning: the user price table when it returns a series; the provider
    history when a ticker is present, rejected if it has zero points; and
    otherwise the transaction-inferred series, in which each priced
    transaction sets that day's value (the last one in list order winning)
    and every other day of the range stays empty until the fill step. -/
theorem price_source_priority (startD endD : Nat) (h : HoldingEntry) :
    (∀ s, h.userPrices = some s →
      holdingPrices startD endD h = some (h.key, reindex s)) ∧
    (h.userPrices = none → h.ticker.isSome → h.yahooHistory ≠ [] →
      holdingPrices startD endD h = some (h.key, reindex h.yahooHistory)) ∧
    (h.userPrices = none → (h.ticker = none ∨ h.yahooHistory = []) →
      holdingPrices startD endD h =
        some (h.key, reindex (inferredPrices startD endD h.transactions))) ∧
    (∀ d, exactLookup (inferredPrices startD endD h.transactions) d =
      lastPricedAt h.transactions d) := by
  refine ⟨?_, ?_, ?_, ?_⟩
  · intro s hu
    simp [holdingPrices, hu]
  · intro hu ht hy
    simp [holdingPrices, hu, ht, hy]
  · intro hu hor
    have hcond : ¬(h.ticker.isSome ∧ h.yahooHistory ≠ []) := by
      rcases hor with hor | hor <;> simp [hor]
    simp [holdingPrices, hu, hcond]
  · intro d
    exact exactLookup_inferredPrices startD endD d h.transactions

/-- A holding carrying both a user price series and a ticker with provider
    history: the user series must win. -/
def c5UserHolding : HoldingEntry :=
  { key := "user: U",
    ticker := some "U",
    firstDate := 0,
    transactions := [],
    configCurrency := none,
    yahooCurrency := none,
    userPrices := some [(0, some 3), (1, some 4)],
    yahooHistory := [(0, some 9)] }

/-- A holding with no user series and a nonempty provider history. -/
def c5YahooHolding : HoldingEntry :=
  { key := "yahoo: Y",
    ticker := some "Y",
    firstDate := 0,
    transactions := [{ date := 0, price := some { amount := 7, currency := "USD" } }],
    configCurrency := none,
    yahooCurrency := none,
    userPrices := none,
    yahooHistory := [(0, some 9)] }

/-- A holding whose ticker exists but whose provider history has zero
    points, so transaction inference must win. -/
def c5TransHolding : HoldingEntry :=
  { key := "trans: T",
    ticker := some "T",
    firstDate := 0,
    transactions := [{ date := 1, price := some { amount := 7, currency := "USD" } }],
    configCurrency := none,
    yahooCurrency := none,
    userPrices := none,
    yahooHistory := [] }

/-- Witness for C5: the three concrete holdings above take, respectively,
    the user branch, the provider branch, and the transaction branch; on the
    last one the inferred series holds the transaction amount on the
    transaction day and nothing elsewhere. -/
theorem price_source_priority_witness :
    holdingPrices 0 2 c5UserHolding = some ("user: U", reindex [(0, some 3), (1, some 4)]) ∧
    holdingPrices 0 2 c5YahooHolding = some ("yahoo: Y", reindex [(0, some 9)]) ∧
    holdingPrices 0 2 c5TransHolding =
      some ("trans: T", reindex (inferredPrices 0 2 c5TransHolding.transactions)) ∧
    exactLookup (inferredPrices 0 2 c5TransHolding.transactions) 1 =
      lastPricedAt c5TransHolding.transactions 1 :=
  ⟨(price_source_priority 0 2 c5UserHolding).1 [(0, some 3), (1, some 4)] rfl,
    (price_source_priority 0 2 c5YahooHolding).2.1 rfl rfl (by decide),
    (price_source_priority 0 2 c5TransHolding).2.2.1 rfl (Or.inr rfl),
    (price_source_priority 0 2 c5TransHolding).2.2.2 1⟩

/-- The staleness test of `Project._get_prices`: every value of
    `price_history.tail(7)` is NaN. -/
def stale (s : PSeries) : Bool :=
  (s.drop (s.length - 7)).all (fun e => e.2.isNone)

/-- The loop of `Project._get_prices`: one labelled series per holding of
    `_first_holdings` (a `None` result is skipped), plus one staleness
    warning per accepted holding whose last seven days are all missing
    (`log_warning`, collected here as the warned keys in emission order). -/
def collectSeries (endD : Nat) : List HoldingEntry → List (String × PSeries) × List String
  | [] => ([], [])
  | h :: hs =>
    let rest := collectSeries endD hs
    match holdingPrices h.firstDate endD h with
    | none => rest
    | some (k, s) =>
      ((k, s) :: rest.1, (if stale s then [k] else []) ++ rest.2)

/-- Insertion into a sorted list of days, used to build the sorted union
    index of `pd.concat(..., join="outer")`. -/
def insertSortedNat (d : Nat) : List Nat → List Nat
  | [] => [d]
  | x :: xs => if d ≤ x then d :: x :: xs else x :: insertSortedNat d xs

/-- The index of the outer join: the set union of all series labels, as a
    sorted duplicate-free list of days. -/
def unionIndex (ls : List (String × PSeries)) : List Nat :=
  ((ls.foldr (fun p acc => p.2.map Prod.fst ++ acc) []).dedup).foldr insertSortedNat []

/-- The aligned table: one row per day of the union index, one column per
    holding series. -/
structure PriceTable where
  index : List Nat
  cols : List (String × List (Option ℚ))
  deriving DecidableEq

/-- `pd.concat(prices, axis=1, join="outer")`: each series becomes a column
    over the union index, with NaN where a label is absent. -/
def concatOuter (ls : List (String × PSeries)) : PriceTable :=
  { index := unionIndex ls,
    cols := ls.map (fun p => (p.1, (unionIndex ls).map (exactLookup p.2))) }

/-- The valid observations of one column, as (day, value) pairs. -/
def knownOf (idx : List Nat) (col : List (Option ℚ)) : List (Nat × ℚ) :=
  (idx.zip col).filterMap (fun e => e.2.map (fun v => (e.1, v)))

/-- One cell of `interpolate(method="time", limit_direction="both")`: linear
    interpolation in time between the nearest valid observations on either
    side, and nearest-value extension where only one side has a valid
    observation. -/
def interpAt (known : List (Nat × ℚ)) (d : Nat) : Option ℚ :=
  match (known.filter (fun e => e.1 < d)).getLast?,
      (known.filter (fun e => d < e.1)).head? with
  | some b, some a =>
    some (b.2 + (a.2 - b.2) * (((d : ℚ) - (b.1 : ℚ)) / ((a.1 : ℚ) - (b.1 : ℚ))))
  | some b, none => some b.2
  | none, some a => some a.2
  | none, none => none

/-- One interpolated column: valid cells are kept, NaN cells are filled from
    the column's own valid observations. -/
def interpCol (idx : List Nat) (col : List (Option ℚ)) : List (Option ℚ) :=
  (idx.zip col).map (fun e =>
    match e.2 with
    | some v => some v
    | none => interpAt (knownOf idx col) e.1)

/-- `prices.interpolate(method="time", axis=0, limit_direction="both")`. -/
def interpTable (t : PriceTable) : PriceTable :=
  { index := t.index, cols := t.cols.map (fun c => (c.1, interpCol t.index c.2)) }

/-- `Project._get_prices`: collect the per-holding series, align them with an
    outer join, interpolate the gaps; returns the table and the staleness
    warnings. -/
def getPrices (endD : Nat) (hs : List HoldingEntry) : PriceTable × List String :=
  (interpTable (concatOuter (collectSeries endD hs).1), (collectSeries endD hs).2)

theorem mem_insertSortedNat {x d : Nat} : ∀ {l : List Nat},
    (x ∈ insertSortedNat d l ↔ x = d ∨ x ∈ l) := by
  intro l
  induction l with
  | nil => simp [insertSortedNat]
  | cons y ys ih =>
    by_cases hle : d ≤ y
    · simp [insertSortedNat, hle]
    · simp only [insertSortedNat, if_neg hle, List.mem_cons, ih]
      tauto

theorem nodup_insertSortedNat {d : Nat} : ∀ {l : List Nat},
    l.Nodup → d ∉ l → (insertSortedNat d l).Nodup := by
  intro l
  induction l with
  | nil => intro _ _; simp [insertSortedNat]
  | cons y ys ih =>
    intro hnd hni
    rcases List.nodup_cons.mp hnd with ⟨hy, hys⟩
    by_cases hle : d ≤ y
    · simp only [insertSortedNat, if_pos hle]
      refine List.nodup_cons.mpr ⟨?_, hnd⟩
      simp only [List.mem_cons]
      push_neg
      exact ⟨fun hc => hni (by simp [hc]), fun hc => hni (by simp [hc])⟩
    · simp only [insertSortedNat, if_neg hle]
      refine List.nodup_cons.mpr ⟨?_, ih hys (fun hc => hni (by simp [hc]))⟩
      rw [mem_insertSortedNat]
      push_neg
      exact ⟨fun hc => hle (le_of_eq hc.symm) |>.elim, hy⟩

theorem mem_foldr_insertSortedNat {x : Nat} : ∀ {l : List Nat},
    (x ∈ l.foldr insertSortedNat [] ↔ x ∈ l) := by
  intro l
  induction l with
  | nil => simp
  | cons y ys ih => simp [mem_insertSortedNat, ih]

theorem nodup_foldr_insertSortedNat : ∀ {l : List Nat},
    l.Nodup → (l.foldr insertSortedNat []).Nodup := by
  intro l
  induction l with
  | nil => intro _; simp
  | cons y ys ih =>
    intro hnd
    rcases List.nodup_cons.mp hnd with ⟨hy, hys⟩
    exact nodup_insertSortedNat (ih hys) (fun hc => hy (mem_foldr_insertSortedNat.mp hc))

theorem nodup_unionIndex (ls : List (String × PSeries)) : (unionIndex ls).Nodup :=
  nodup_foldr_insertSortedNat (List.nodup_dedup _)

theorem mem_unionIndex {ls : List (String × PSeries)} {k : String} {s : PSeries}
    {d : Nat} {v : Option ℚ} (hls : (k, s) ∈ ls) (hm : (d, v) ∈ s) :
    d ∈ unionIndex ls := by
  unfold unionIndex
  rw [mem_foldr_insertSortedNat, List.mem_dedup]
  induction ls with
  | nil => cases hls
  | cons p ps ih =>
    simp only [List.foldr_cons, List.mem_append]
    rcases List.mem_cons.mp hls with rfl | hls'
    · exact Or.inl (List.mem_map_of_mem Prod.fst hm)
    · exact Or.inr (ih hls')

theorem zip_fst_unique {α β : Type} {idx : List α} (hnd : idx.Nodup) :
    ∀ {col : List β} {a : α} {b c : β},
      (a, b) ∈ idx.zip col → (a, c) ∈ idx.zip col → b = c := by
  induction idx with
  | nil => intro col a b c h; cases h
  | cons x xs ih =>
    intro col a b c hb hc
    cases col with
    | nil => cases hb
    | cons y ys =>
      rcases List.nodup_cons.mp hnd with ⟨hx, hxs⟩
      simp only [List.zip_cons_cons, List.mem_cons, Prod.mk.injEq] at hb hc
      rcases hb with ⟨rfl, rfl⟩ | hb'
      · rcases hc with ⟨_, rfl⟩ | hc'
        · rfl
        · exact absurd (List.of_mem_zip hc').1 hx
      · rcases hc with ⟨rfl, rfl⟩ | hc'
        · exact absurd (List.of_mem_zip hb').1 hx
        · exact ih hxs hb' hc'

theorem exactLookup_eq_of_mem {s : PSeries} {d : Nat} {v : Option ℚ}
    (hs : List.Pairwise (fun a b => a.1 < b.1) s) (hm : (d, v) ∈ s) :
    exactLookup s d = v := by
  induction s with
  | nil => cases hm
  | cons e rest ih =>
    rcases List.pairwise_cons.mp hs with ⟨hrel, hrest⟩
    rcases List.mem_cons.mp hm with rfl | hm'
    · simp [exactLookup, List.find?]
    · have hne : e.1 ≠ d := by
        have := hrel (d, v) hm'
        omega
      simp only [exactLookup, List.find?] at ih ⊢
      rw [show (decide (e.1 = d)) = false by simp [hne]]
      exact ih hrest hm'

theorem mem_zip_map {α β : Type} (f : α → β) {idx : List α} {d : α} (hd : d ∈ idx) :
    (d, f d) ∈ idx.zip (idx.map f) := by
  induction idx with
  | nil => cases hd
  | cons x xs ih =>
    rcases List.mem_cons.mp hd with rfl | hd'
    · simp
    · simp only [List.map_cons, List.zip_cons_cons, List.mem_cons]
      exact Or.inr (ih hd')

theorem interpAt_isSome {known : List (Nat × ℚ)} {d : Nat} (hne : known ≠ [])
    (hno : ∀ k ∈ known, k.1 ≠ d) : (interpAt known d).isSome = true := by
  unfold interpAt
  cases hb : (known.filter (fun e => e.1 < d)).getLast? with
  | some b =>
    cases ha : (known.filter (fun e => d < e.1)).head? with
    | some a => rfl
    | none => rfl
  | none =>
    cases ha : (known.filter (fun e => d < e.1)).head? with
    | some a => rfl
    | none =>
      exfalso
      have hbnil := List.getLast?_eq_none_iff.mp hb
      have hanil := List.head?_eq_none_iff.mp ha
      cases known with
      | nil => exact hne rfl
      | cons k ks =>
        have h1 : ¬(k.1 < d) := by
          intro hlt
          have : k ∈ List.filter (fun e => decide (e.1 < d)) (k :: ks) :=
            List.mem_filter.mpr ⟨List.mem_cons_self k ks, by simp [hlt]⟩
          rw [hbnil] at this
          cases this
        have h2 : ¬(d < k.1) := by
          intro hlt
          have : k ∈ List.filter (fun e => decide (d < e.1)) (k :: ks) :=
            List.mem_filter.mpr ⟨List.mem_cons_self k ks, by simp [hlt]⟩
          rw [hanil] at this
          cases this
        exact hno k (List.mem_cons_self k ks) (by omega)

theorem interpCol_no_gap {idx : List Nat} {col : List (Option ℚ)}
    (hnd : idx.Nodup) (hex : knownOf idx col ≠ []) :
    ∀ w ∈ interpCol idx col, w.isSome = true := by
  intro w hw
  rcases List.mem_map.mp hw with ⟨e, he, rfl⟩
  cases hv : e.2 with
  | some v => simp [hv]
  | none =>
    simp only [hv]
    refine interpAt_isSome hex ?_
    intro k hk hkd
    rcases List.mem_filterMap.mp hk with ⟨e', he', hfe⟩
    have he2 : e'.2 = some k.2 ∧ e'.1 = k.1 := by
      cases hx : e'.2 with
      | none => rw [hx] at hfe; cases hfe
      | some x =>
        rw [hx] at hfe
        simp only [Option.map_some'] at hfe
        cases hfe
        exact ⟨rfl, rfl⟩
    have hmem1 : (e.1, (none : Option ℚ)) ∈ idx.zip col := by
      rw [← hv]
      exact he
    have hmem2 : (e.1, some k.2) ∈ idx.zip col := by
      have : e' = (e.1, some k.2) := by
        rcases he2 with ⟨h2, h1⟩
        have : e'.1 = e.1 := by rw [h1, hkd]
        calc e' = (e'.1, e'.2) := rfl
          _ = (e.1, some k.2) := by rw [this, h2]
      rw [← this]
      exact he'
    have := zip_fst_unique hnd hmem1 hmem2
    cases this

theorem pairwise_reindex (s : PSeries) :
    List.Pairwise (fun a b => a.1 < b.1) (reindex s) := by
  unfold reindex
  by_cases hne : s = []
  · simp [hne]
  · rw [if_neg hne]
    exact pairwise_reindexFrom s _ _

theorem collect_sorted (endD : Nat) (hs : List HoldingEntry) :
    ∀ p ∈ (collectSeries endD hs).1, List.Pairwise (fun a b => a.1 < b.1) p.2 := by
  induction hs with
  | nil => intro p hp; cases hp
  | cons a as ih =>
    intro p hp
    simp only [collectSeries, holdingPrices_eq_src] at hp
    rcases List.mem_cons.mp hp with rfl | hp'
    · exact pairwise_reindex _
    · exact ih p hp'

theorem collect_keys (endD : Nat) (hs : List HoldingEntry) :
    ((collectSeries endD hs).1).map Prod.fst = hs.map HoldingEntry.key := by
  induction hs with
  | nil => rfl
  | cons a as ih =>
    simp only [collectSeries, holdingPrices_eq_src, List.map_cons]
    rw [ih]

theorem getPrices_cols_fst (endD : Nat) (hs : List HoldingEntry) :
    (getPrices endD hs).1.cols.map Prod.fst = ((collectSeries endD hs).1).map Prod.fst := by
  simp [getPrices, interpTable, concatOuter, List.map_map, Function.comp]

theorem mem_getPrices_cols {endD : Nat} {hs : List HoldingEntry}
    {c : String × List (Option ℚ)} :
    c ∈ (getPrices endD hs).1.cols ↔
      ∃ p ∈ (collectSeries endD hs).1,
        c = (p.1, interpCol (unionIndex (collectSeries endD hs).1)
          ((unionIndex (collectSeries endD hs).1).map (exactLookup p.2))) := by
  simp only [getPrices, interpTable, concatOuter, List.mem_map]
  constructor
  · rintro ⟨c', ⟨p, hp, rfl⟩, rfl⟩
    exact ⟨p, hp, rfl⟩
  · rintro ⟨p, hp, rfl⟩
    exact ⟨(p.1, (unionIndex (collectSeries endD hs).1).map (exactLookup p.2)),
      ⟨p, hp, rfl⟩, rfl⟩

theorem collect_stale_mem (endD : Nat) {hs : List HoldingEntry} {h : HoldingEntry}
    (hmem : h ∈ hs) {k : String} {s : PSeries}
    (hps : holdingPrices h.firstDate endD h = some (k, s)) (hst : stale s = true) :
    k ∈ (collectSeries endD hs).2 ∧ (k, s) ∈ (collectSeries endD hs).1 := by
  induction hs with
  | nil => cases hmem
  | cons a as ih =>
    rcases List.mem_cons.mp hmem with rfl | hmem'
    · simp only [collectSeries, hps, hst, if_true, List.mem_append]
      exact ⟨Or.inl (List.mem_singleton.mpr rfl), List.mem_cons_self _ _⟩
    · rcases ih hmem' with ⟨hw, hsm⟩
      cases hp2 : holdingPrices a.firstDate endD a with
      | none => simpa [collectSeries, hp2] using ⟨hw, hsm⟩
      | some ks =>
        obtain ⟨k2, s2⟩ := ks
        simp only [collectSeries, hp2, List.mem_append]
        exact ⟨Or.inr hw, List.mem_cons_of_mem _ hsm⟩

/-- C6: a holding whose sourced price series has its last seven calendar
    days entirely unfilled is warned about (its key enters the warning list,
    nothing is raised) and its series is still accepted: it stays in the
    collected list and contributes a column to the price table, so report
    generation continues. -/
theorem stale_price_warning (endD : Nat) (hs : List HoldingEntry) (h : HoldingEntry)
    (k : String) (s : PSeries) (hmem : h ∈ hs)
    (hps : holdingPrices h.firstDate endD h = some (k, s))
    (hst : stale s = true) :
    k ∈ (getPrices endD hs).2 ∧ (k, s) ∈ (collectSeries endD hs).1 ∧
      k ∈ (getPrices endD hs).1.cols.map Prod.fst := by
  obtain ⟨hw, hsm⟩ := collect_stale_mem endD hmem hps hst
  refine ⟨hw, hsm, ?_⟩
  rw [getPrices_cols_fst]
  exact List.mem_map_of_mem Prod.fst hsm

/-- A holding whose series is entirely unfilled, hence stale. -/
def c6Holding : HoldingEntry :=
  { key := "cash: IDLE",
    ticker := none,
    firstDate := 0,
    transactions := [{ date := 1, price := none }],
    configCurrency := some "USD",
    yahooCurrency := none,
    userPrices := none,
    yahooHistory := [] }

/-- Witness for C6: the concrete all-NaN holding is warned about and still
    contributes its column. -/
theorem stale_price_warning_witness :
    (c6Holding ∈ [c6Holding] ∧
      holdingPrices c6Holding.firstDate 4 c6Holding =
        some ("cash: IDLE", [(0, none), (1, none), (2, none), (3, none), (4, none)]) ∧
      stale [(0, none), (1, none), (2, none), (3, none), (4, none)] = true) ∧
    ("cash: IDLE" ∈ (getPrices 4 [c6Holding]).2 ∧
      ("cash: IDLE", [(0, none), (1, none), (2, none), (3, none), (4, none)]) ∈
        (collectSeries 4 [c6Holding]).1 ∧
      "cash: IDLE" ∈ (getPrices 4 [c6Holding]).1.cols.map Prod.fst) :=
  ⟨⟨by decide, by decide, by decide⟩,
    stale_price_warning 4 [c6Holding] c6Holding "cash: IDLE"
      [(0, none), (1, none), (2, none), (3, none), (4, none)]
      (by decide) (by decide) (by decide)⟩

/-- A holding that yields zero price points from every source: no user
    prices, no ticker, and no transaction carrying a price. -/
def c10Holding : HoldingEntry :=
  { key := "cash: ZERO",
    ticker := none,
    firstDate := 0,
    transactions := [{ date := 1, price := none }],
    configCurrency := some "USD",
    yahooCurrency := none,
    userPrices := none,
    yahooHistory := [] }

/-- C10: `_get_holding_prices` returns a series on every path, so the
    `is not None` guard in `_get_prices` never skips a holding: the
    collected series and the resulting table columns are exactly one per
    first holding, in order; a holding with zero price points from every
    source still contributes a column, which enters the table entirely
    empty rather than the holding being dropped or raising at this stage. -/
theorem holding_always_contributes :
    (∀ startD endD h, (holdingPrices startD endD h).isSome = true) ∧
    (∀ endD hs, ((collectSeries endD hs).1).map Prod.fst = hs.map HoldingEntry.key) ∧
    (∀ endD hs, (getPrices endD hs).1.cols.map Prod.fst = hs.map HoldingEntry.key) ∧
    (getPrices 4 [c10Holding]).1.cols = [("cash: ZERO", [none, none, none, none, none])] := by
  refine ⟨?_, ?_, ?_, by decide⟩
  · intro startD endD h
    rw [holdingPrices_eq_src]
    rfl
  · intro endD hs
    exact collect_keys endD hs
  · intro endD hs
    rw [getPrices_cols_fst]
    exact collect_keys endD hs

/-- A holding that yields zero price points from every source, for the
    alignment no-gap analysis. -/
def c7VoidHolding : HoldingEntry :=
  { key := "cash: VOID",
    ticker := none,
    firstDate := 0,
    transactions := [{ date := 1, price := none }],
    configCurrency := some "USD",
    yahooCurrency := none,
    userPrices := none,
    yahooHistory := [] }

/-- A holding with a user price series known on days 0 and 2. -/
def c7WitnessA : HoldingEntry :=
  { key := "user: WA",
    ticker := none,
    firstDate := 0,
    transactions := [],
    configCurrency := none,
    yahooCurrency := none,
    userPrices := some [(0, some 2), (2, some 4)],
    yahooHistory := [] }

/-- Counterexample to C7 as stated: in a table holding a series with known
    values next to a holding with zero price points from every source, the
    zero-point holding produces an all-NaN column that time interpolation
    cannot fill, so the aligned table does contain empty cells (while the
    known-value column is completely filled). -/
theorem c7_counterexample :
    (getPrices 4 [c7WitnessA, c7VoidHolding]).1.index = [0, 1, 2, 3, 4] ∧
    (getPrices 4 [c7WitnessA, c7VoidHolding]).1.cols =
      [("user: WA", [some 2, some 2, some 4, some 4, some 4]),
        ("cash: VOID", [none, none, none, none, none])] := by
  exact ⟨by decide, by decide⟩

/-- C7 corrected: every column of the aligned and interpolated PriceTable
    is the interpolation of one collected series over the union index, and
    any column whose own collected series carries at least one known value
    has no empty cell; only a column whose series is entirely empty can
    keep empty cells. -/
theorem c7_amended (endD : Nat) (hs : List HoldingEntry) :
    (∀ c ∈ (getPrices endD hs).1.cols,
      ∃ p ∈ (collectSeries endD hs).1,
        c = (p.1, interpCol (unionIndex (collectSeries endD hs).1)
          ((unionIndex (collectSeries endD hs).1).map (exactLookup p.2)))) ∧
    (∀ p ∈ (collectSeries endD hs).1, (∃ d v, (d, some v) ∈ p.2) →
      ∀ w ∈ interpCol (unionIndex (collectSeries endD hs).1)
          ((unionIndex (collectSeries endD hs).1).map (exactLookup p.2)),
        w.isSome = true) := by
  constructor
  · intro c hc
    exact mem_getPrices_cols.mp hc
  · intro p hp hex w hw
    rcases hex with ⟨d0, v0, hm0⟩
    have hsort := collect_sorted endD hs p hp
    have hexact : exactLookup p.2 d0 = some v0 := exactLookup_eq_of_mem hsort hm0
    have hd0 : d0 ∈ unionIndex (collectSeries endD hs).1 := by
      refine mem_unionIndex (k := p.1) (s := p.2) ?_ hm0
      exact hp
    have hzip : (d0, exactLookup p.2 d0) ∈
        (unionIndex (collectSeries endD hs).1).zip
          ((unionIndex (collectSeries endD hs).1).map (exactLookup p.2)) :=
      mem_zip_map (exactLookup p.2) hd0
    have hknown : (d0, v0) ∈ knownOf (unionIndex (collectSeries endD hs).1)
        ((unionIndex (collectSeries endD hs).1).map (exactLookup p.2)) := by
      refine List.mem_filterMap.mpr ⟨(d0, some v0), ?_, rfl⟩
      rw [hexact] at hzip
      exact hzip
    exact interpCol_no_gap (nodup_unionIndex _) (List.ne_nil_of_mem hknown) w hw

/-- Witness for the corrected C7, on the mixed table that aligns one series
    with known values next to one all-empty series: the known-value column
    is completely filled even though its neighbor column is entirely
    empty. -/
theorem c7_amended_witness :
    (("user: WA", ([(0, some 2), (1, some 2), (2, some 4)] : PSeries)) ∈
        (collectSeries 4 [c7WitnessA, c7VoidHolding]).1 ∧
      (∃ d v, (d, some (v : ℚ)) ∈
        ([(0, some 2), (1, some 2), (2, some 4)] : PSeries))) ∧
    (∀ w ∈ interpCol (unionIndex (collectSeries 4 [c7WitnessA, c7VoidHolding]).1)
        ((unionIndex (collectSeries 4 [c7WitnessA, c7VoidHolding]).1).map
          (exactLookup [(0, some 2), (1, some 2), (2, some 4)])),
      w.isSome = true) :=
  ⟨⟨by decide, ⟨0, 2, by decide⟩⟩,
    (c7_amended 4 [c7WitnessA, c7VoidHolding]).2
      ("user: WA", [(0, some 2), (1, some 2), (2, some 4)])
      (by decide) ⟨0, 2, by decide⟩⟩

/-- A holding whose only price points are transactions on day 0 at 100 and
    day 10 at 200, leaving days 1-9 empty until the fill step. -/
def c8MidHolding : HoldingEntry :=
  { key := "trans: MID",
    ticker := none,
    firstDate := 0,
    transactions :=
      [{ date := 0, price := some { amount := 100, currency := "USD" } },
        { date := 10, price := some { amount := 200, currency := "USD" } }],
    configCurrency := none,
    yahooCurrency := none,
    userPrices := none,
    yahooHistory := [] }

/-- A holding whose user series has a single point at day 3, so that the
    outer join leaves both extremes of its column without a known value on
    one side. -/
def c8EdgeHolding : HoldingEntry :=
  { key := "user: EDGE",
    ticker := none,
    firstDate := 0,
    transactions := [],
    configCurrency := none,
    yahooCurrency := none,
    userPrices := some [(3, some 50)],
    yahooHistory := [] }

unseal Rat.add Rat.mul Rat.sub Rat.inv in
/-- C8: cells left empty by the outer join are filled by time-based linear
    interpolation between the nearest known values of the same column
    (known 100 at day 0 and 200 at day 10 gives exactly 150 at day 5, and
    100 + 10 d on every day d in between), and cells with no known value on
    one side are filled by nearest-neighbor extension in both directions
    (the single-point column extends to 50 everywhere). -/
theorem interpolation_fill :
    (getPrices 10 [c8MidHolding, c8EdgeHolding]).1.index =
      [0, 1, 2, 3, 4, 5, 6, 7, 8, 9, 10] ∧
    (getPrices 10 [c8MidHolding, c8EdgeHolding]).1.cols =
      [("trans: MID",
        [some 100, some 110, some 120, some 130, some 140, some 150, some 160,
          some 170, some 180, some 190, some 200]),
        ("user: EDGE",
        [some 50, some 50, some 50, some 50, some 50, some 50, some 50,
          some 50, some 50, some 50, some 50])] := by
  exact ⟨by decide, by decide⟩

/-- Quantity of holding k in one balance snapshot (0 when absent). -/
def qtyLookup (snap : List (String × ℚ)) (k : String) : ℚ :=
  match snap.find? (fun e => e.1 = k) with
  | some e => e.2
  | none => 0

/-- Quantity under an optional current snapshot: 0 before the first
    balance of the portfolio. -/
def snapQty : Option (List (String × ℚ)) → String → ℚ
  | none, _ => 0
  | some snap, k => qtyLookup snap k

/-- Step of the forward fill over balance snapshots: consume every snapshot
    dated at most d, keeping the last one consumed as the current state. -/
def advanceBal (cur : Option (List (String × ℚ)))
    (bals : List (Nat × List (String × ℚ))) (d : Nat) :
    Option (List (String × ℚ)) × List (Nat × List (String × ℚ)) :=
  match bals with
  | [] => (cur, [])
  | b :: rest => if b.1 ≤ d then advanceBal (some b.2) rest d else (cur, b :: rest)

/-- The daily quantity table: walk the (ascending) days once, carrying the
    most recent balance snapshot forward. -/
def ffQuantities :
    Option (List (String × ℚ)) → List (Nat × List (String × ℚ)) → List Nat →
      List (Nat × Option (List (String × ℚ)))
  | _, _, [] => []
  | cur, bals, d :: ds =>
    (d, (advanceBal cur bals d).1) ::
      ffQuantities (advanceBal cur bals d).1 (advanceBal cur bals d).2 ds

/-- Modelled from the spec: `Analysis.get_allocations` lives in analysis.py,
    which is not under src/.  Per section 4.4 it builds a daily quantity
    table by forward-filling each balance snapshot until superseded (0
    before a holding's first balance), multiplies cell by cell quantity
    times aligned price times conversion rate to the destination currency,
    and restricts to the last ndays calendar days of the combined range. -/
def get_allocations (index : List Nat) (ndays : Nat)
    (bals : List (Nat × List (String × ℚ))) (keys : List String)
    (price : Nat → String → ℚ) (rate : String → ℚ) : List (Nat × List ℚ) :=
  let window := index.drop (index.length - ndays)
  (ffQuantities none bals window).map
    (fun e => (e.1, keys.map (fun k => snapQty e.2 k * price e.1 k * rate k)))

/-- The reported Balance series: `allocations.sum(axis=1)` of
    `Project._get_report_data` (project.py line 101), one row-sum per day. -/
def balanceSeries (alloc : List (Nat × List ℚ)) : List (Nat × ℚ) :=
  alloc.map (fun r => (r.1, r.2.sum))

/-- The most recent balance snapshot dated at most d, computed directly
    (independently of the forward-fill walk). -/
def lastBalanceLE (bals : List (Nat × List (String × ℚ))) (d : Nat) :
    Option (List (String × ℚ)) :=
  match (bals.filter (fun b => b.1 ≤ d)).getLast? with
  | some b => some b.2
  | none => none

/-- The total portfolio value for day d computed independently per holding:
    quantity held on that day times price times conversion rate, summed. -/
def totalValue (bals : List (Nat × List (String × ℚ))) (price : Nat → String → ℚ)
    (rate : String → ℚ) (keys : List String) (d : Nat) : ℚ :=
  (keys.map (fun k => snapQty (lastBalanceLE bals d) k * price d k * rate k)).sum

theorem advanceBal_step {cur : Option (List (String × ℚ))}
    {bals : List (Nat × List (String × ℚ))} {d d' : Nat}
    (hle : d ≤ d') :
    advanceBal (advanceBal cur bals d).1 (advanceBal cur bals d).2 d' =
      advanceBal cur bals d' := by
  induction bals generalizing cur with
  | nil => rfl
  | cons b rest ih =>
    by_cases hb : b.1 ≤ d
    · have hb' : b.1 ≤ d' := le_trans hb hle
      simp only [advanceBal, if_pos hb, if_pos hb']
      exact ih
    · simp only [advanceBal, if_neg hb]

theorem advanceBal_fst {bals : List (Nat × List (String × ℚ))}
    (hbs : List.Pairwise (fun a b => a.1 ≤ b.1) bals)
    (cur : Option (List (String × ℚ))) (d : Nat) :
    (advanceBal cur bals d).1 =
      match (bals.filter (fun b => b.1 ≤ d)).getLast? with
      | some b => some b.2
      | none => cur := by
  induction bals generalizing cur with
  | nil => rfl
  | cons b rest ih =>
    rcases List.pairwise_cons.mp hbs with ⟨hrel, hrest⟩
    by_cases hb : b.1 ≤ d
    · simp only [advanceBal, if_pos hb, List.filter_cons, decide_eq_true_eq]
      rw [ih hrest]
      cases hfr : rest.filter (fun b => decide (b.1 ≤ d)) with
      | nil => simp
      | cons y ys =>
        rw [List.getLast?_cons_cons]
        cases hgl : (y :: ys).getLast? with
        | none => exact absurd (List.getLast?_eq_none_iff.mp hgl) (by simp)
        | some z => rfl
    · simp only [advanceBal, if_neg hb, List.filter_cons, decide_eq_true_eq]
      have hfr : rest.filter (fun b => decide (b.1 ≤ d)) = [] := by
        refine List.filter_eq_nil_iff.mpr ?_
        intro x hx
        have := hrel x hx
        simp only [decide_eq_true_eq]
        omega
      rw [hfr]
      rfl

theorem advanceBal_none_eq_lastLE {bals : List (Nat × List (String × ℚ))}
    (hbs : List.Pairwise (fun a b => a.1 ≤ b.1) bals) (d : Nat) :
    (advanceBal none bals d).1 = lastBalanceLE bals d := by
  rw [advanceBal_fst hbs]
  rfl

theorem ffQuantities_eq {orig : List (Nat × List (String × ℚ))} :
    ∀ (days : List Nat), List.Pairwise (fun a b : Nat => a ≤ b) days →
      ∀ (cur : Option (List (String × ℚ))) (rem : List (Nat × List (String × ℚ))),
        (∀ d ∈ days, advanceBal cur rem d = advanceBal none orig d) →
        ffQuantities cur rem days =
          days.map (fun d => (d, (advanceBal none orig d).1)) := by
  intro days
  induction days with
  | nil => intro _ cur rem _; rfl
  | cons d ds ih =>
    intro hp cur rem hagree
    rcases List.pairwise_cons.mp hp with ⟨hd, hds⟩
    have hcur : advanceBal cur rem d = advanceBal none orig d :=
      hagree d (List.mem_cons_self d ds)
    simp only [ffQuantities, List.map_cons]
    rw [hcur]
    congr 1
    refine ih hds _ _ ?_
    intro d' hd'
    exact advanceBal_step (hd d' hd')

/-- C1: for every row of the allocation matrix, the sum over holdings of
    that day's cells equals the total portfolio value for the day computed
    independently per holding (quantity held times price times conversion
    rate, summed), and the reported Balance series is exactly this row-sum
    series. -/
theorem allocation_row_sum (index : List Nat) (ndays : Nat)
    (bals : List (Nat × List (String × ℚ))) (keys : List String)
    (price : Nat → String → ℚ) (rate : String → ℚ)
    (hbs : List.Pairwise (fun a b => a.1 ≤ b.1) bals)
    (hidx : List.Pairwise (fun a b : Nat => a ≤ b) index) :
    (∀ r ∈ get_allocations index ndays bals keys price rate,
      r.2.sum = totalValue bals price rate keys r.1) ∧
    balanceSeries (get_allocations index ndays bals keys price rate) =
      (get_allocations index ndays bals keys price rate).map
        (fun r => (r.1, totalValue bals price rate keys r.1)) := by
  have hwin : List.Pairwise (fun a b : Nat => a ≤ b)
      (index.drop (index.length - ndays)) :=
    List.Pairwise.sublist (List.drop_sublist _ _) hidx
  have hff : ffQuantities none bals (index.drop (index.length - ndays)) =
      (index.drop (index.length - ndays)).map
        (fun d => (d, (advanceBal none bals d).1)) :=
    ffQuantities_eq _ hwin none bals (fun d _ => rfl)
  have hrow : ∀ r ∈ get_allocations index ndays bals keys price rate,
      r.2.sum = totalValue bals price rate keys r.1 := by
    intro r hr
    simp only [get_allocations] at hr
    rw [hff] at hr
    rcases List.mem_map.mp hr with ⟨e, he, rfl⟩
    rcases List.mem_map.mp he with ⟨d, hd, rfl⟩
    show (keys.map fun k =>
      snapQty (advanceBal none bals d).1 k * price d k * rate k).sum =
        totalValue bals price rate keys d
    rw [advanceBal_none_eq_lastLE hbs]
    rfl
  refine ⟨hrow, ?_⟩
  unfold balanceSeries
  refine List.map_congr_left ?_
  intro r hr
  rw [hrow r hr]

/-- The daily index of the concrete allocation scenario. -/
def c1Index : List Nat := [0, 1, 2, 3, 4, 5, 6, 7, 8, 9]

/-- Two balance snapshots: holding A alone from day 0, A and B from day 7. -/
def c1Balances : List (Nat × List (String × ℚ)) :=
  [(0, [("A", 10)]), (7, [("A", 10), ("B", 5)])]

/-- The holding keys of the concrete scenario. -/
def c1Keys : List String := ["A", "B"]

/-- Constant prices: A at 10, B at 20. -/
def c1Price : Nat → String → ℚ := fun _ k => if k = "A" then 10 else 20

/-- Conversion rates to the destination currency: A at 1, B at 2. -/
def c1Rate : String → ℚ := fun k => if k = "A" then 1 else 2

unseal Rat.add Rat.mul Rat.sub Rat.inv in
/-- Witness for C1: on the concrete scenario the day-7 row is
    A = 10 x 10 x 1 = 100 and B = 5 x 20 x 2 = 200, and its row-sum equals
    the independently computed total. -/
theorem allocation_row_sum_witness :
    ((List.Pairwise (fun a b => a.1 ≤ b.1) c1Balances) ∧
      (7, [(100 : ℚ), 200]) ∈ get_allocations c1Index 10 c1Balances c1Keys c1Price c1Rate) ∧
    [(100 : ℚ), 200].sum = totalValue c1Balances c1Price c1Rate c1Keys 7 :=
  ⟨⟨by decide, by decide⟩,
    (allocation_row_sum c1Index 10 c1Balances c1Keys c1Price c1Rate
      (by decide) (by decide)).1 (7, [100, 200]) (by decide)⟩

/-- The signed net cash flow for day d: the sum of the flow amounts dated d
    (each flow being a transaction amount already in destination currency). -/
def netFlow (flows : List (Nat × ℚ)) (d : Nat) : ℚ :=
  ((flows.filter (fun f => f.1 = d)).map Prod.snd).sum

/-- Modelled from the spec: the per-day recurrence of
    `Analysis.get_earnings`, which lives in analysis.py, not under src/.
    Given the previous day p, each day d of the remaining window yields
    total(d) - total(p) - netFlow(d). -/
def earnAux (total : Nat → ℚ) (flows : List (Nat × ℚ)) : Nat → List Nat → List ℚ
  | _, [] => []
  | p, d :: ds => (total d - total p - netFlow flows d) :: earnAux total flows d ds

/-- Modelled from the spec: `Analysis.get_earnings` lives in analysis.py,
    which is not under src/.  Per section 4.5 it produces one value per day
    of the restricted window, the first day getting 0 (no look-back outside
    the window) and every later day d getting
    total(d) - total(previous day) - netFlow(d). -/
def get_earnings (total : Nat → ℚ) (flows : List (Nat × ℚ)) : List Nat → List ℚ
  | [] => []
  | d :: ds => 0 :: earnAux total flows d ds

theorem earnAux_spec (total : Nat → ℚ) (flows : List (Nat × ℚ)) :
    ∀ (ds : List Nat) (p : Nat),
      (earnAux total flows p ds).length = ds.length ∧
      (∀ i, i < ds.length →
        (earnAux total flows p ds).getD i 0 =
          total ((p :: ds).getD (i + 1) 0) - total ((p :: ds).getD i 0) -
            netFlow flows ((p :: ds).getD (i + 1) 0)) := by
  intro ds
  induction ds with
  | nil => intro p; exact ⟨rfl, fun i hi => absurd hi (by simp)⟩
  | cons d ds ih =>
    intro p
    refine ⟨by simp [earnAux, (ih d).1], ?_⟩
    intro i hi
    cases i with
    | zero => simp [earnAux]
    | succ j =>
      have hj : j < ds.length := by simpa using hi
      have hrec := (ih d).2 j hj
      simp only [earnAux, List.getD_cons_succ]
      exact hrec

/-- C9: the earnings series has one value per day of the window, its first
    value is exactly 0 (no look-back outside the window), every later day d
    carries total(d) minus total(previous day) minus the signed net cash
    flow dated d, and earnings values can be negative. -/
theorem earnings_spec (total : Nat → ℚ) (flows : List (Nat × ℚ)) (window : List Nat) :
    (get_earnings total flows window).length = window.length ∧
    (window ≠ [] → (get_earnings total flows window).head? = some 0) ∧
    (∀ i, i + 1 < window.length →
      (get_earnings total flows window).getD (i + 1) 0 =
        total (window.getD (i + 1) 0) - total (window.getD i 0) -
          netFlow flows (window.getD (i + 1) 0)) ∧
    (∃ t f w x, x ∈ get_earnings t f w ∧ x < 0) := by
  refine ⟨?_, ?_, ?_, ?_⟩
  · cases window with
    | nil => rfl
    | cons d ds => simp [get_earnings, (earnAux_spec total flows ds d).1]
  · cases window with
    | nil => intro hc; exact absurd rfl hc
    | cons d ds => intro _; rfl
  · cases window with
    | nil => intro i hi; exact absurd hi (by simp)
    | cons d ds =>
      intro i hi
      simp only [get_earnings, List.getD_cons_succ]
      exact (earnAux_spec total flows ds d).2 i (by simpa using hi)
  · refine ⟨fun _ => 0, [(1, 1)], [0, 1], (0 : ℚ) - 0 - netFlow [(1, 1)] 1, ?_, ?_⟩
    · simp [get_earnings, earnAux]
    · norm_num [netFlow]

/-- A quadratic total-value curve for the concrete earnings scenario. -/
def c9Total : Nat → ℚ := fun d => (d : ℚ) * d

/-- One cash flow of 2 on day 4. -/
def c9Flows : List (Nat × ℚ) := [(4, 2)]

unseal Rat.add Rat.mul Rat.sub Rat.inv in
/-- Witness for C9: on the window [3, 4, 5] the first value is 0 and the
    value for day 5 satisfies the recurrence. -/
theorem earnings_spec_witness :
    (([3, 4, 5] : List Nat) ≠ [] ∧ 1 + 1 < ([3, 4, 5] : List Nat).length) ∧
    ((get_earnings c9Total c9Flows [3, 4, 5]).head? = some 0 ∧
      (get_earnings c9Total c9Flows [3, 4, 5]).getD 2 0 =
        c9Total (([3, 4, 5] : List Nat).getD 2 0) -
          c9Total (([3, 4, 5] : List Nat).getD 1 0) -
          netFlow c9Flows (([3, 4, 5] : List Nat).getD 2 0)) :=
  ⟨⟨by decide, by decide⟩,
    ⟨(earnings_spec c9Total c9Flows [3, 4, 5]).2.1 (by decide),
      (earnings_spec c9Total c9Flows [3, 4, 5]).2.2.1 1 (by decide)⟩⟩
